import Mathlib

/-!
Shallow embedding of nnfasta (src/nnfasta/fasta.py): memory-mapped FASTA
indexing.  Byte sources are modelled as lists of naturals (byte values),
regex scans as explicit recursive scans, Python exceptions as Option.none.
Text decoding is modelled for the default codec (7-bit ASCII); the
`encoding` parameter of the source is a pass-through that the claims never
vary.
-/

namespace NNF

/-- Mirrors the Record dataclass: id, description, seq (decoded text). -/
structure Record where
  id : String
  description : String
  seq : String
deriving DecidableEq, Repr

/-- Byte values of a string literal; used to write concrete byte sources. -/
def bytesOf (s : String) : List Nat :=
  s.data.map Char.toNat

/-- A word byte for the regex class that WHITE = \W complements:
letters, digits and underscore. -/
def isWordByte (b : Nat) : Bool :=
  decide ((48 ≤ b ∧ b ≤ 57) ∨ (65 ≤ b ∧ b ≤ 90) ∨ (97 ≤ b ∧ b ≤ 122) ∨ b = 95)

/-- remove_white: WHITE.sub(b"", s) deletes every non-word byte. -/
def removeWhite (l : List Nat) : List Nat :=
  l.filter isWordByte

/-- bytes.upper(): ASCII upper-casing of a byte. -/
def asciiUpper (b : Nat) : Nat :=
  if 97 ≤ b ∧ b ≤ 122 then b - 32 else b

/-- ASCII whitespace bytes stripped by bytes.strip(). -/
def isPySpaceByte (b : Nat) : Bool :=
  decide (b = 32 ∨ b = 9 ∨ b = 10 ∨ b = 13 ∨ b = 11 ∨ b = 12)

/-- bytes.strip(): drop ASCII whitespace from both ends. -/
def stripBytes (l : List Nat) : List Nat :=
  ((l.dropWhile isPySpaceByte).reverse.dropWhile isPySpaceByte).reverse

/-- bytes.decode("ascii"): fails on bytes above 127. -/
def decodeAscii (l : List Nat) : Option String :=
  if l.all (fun b => decide (b < 128)) then some (String.mk (l.map Char.ofNat))
  else none

/-- desc.split(b" ", maxsplit=1): one or two pieces, split at the first
space byte. -/
def splitSpace1 (l : List Nat) : List (List Nat) :=
  if l.contains 32 then
    [l.takeWhile (fun b => b != 32), (l.dropWhile (fun b => b != 32)).tail]
  else [l]

/-- EOL.search: index of the first newline or carriage-return byte. -/
def findEol (l : List Nat) : Option Nat :=
  List.findIdx? (fun b => b == 10 || b == 13) l

/-- PREFIX.finditer over the byte source: every match of `\n>`, `\r>` or a
`>` at a multiline line start, as (start, end) offset pairs.  The Bool
tracks whether `^` matches at the current position (offset 0 or just after
a newline byte). -/
def findMarkers : List Nat → Nat → Bool → List (Nat × Nat)
  | 10 :: 62 :: rest, p, _ => (p, p + 2) :: findMarkers rest (p + 2) false
  | 13 :: 62 :: rest, p, _ => (p, p + 2) :: findMarkers rest (p + 2) false
  | 62 :: rest, p, true => (p, p + 1) :: findMarkers rest (p + 1) false
  | b :: rest, p, _ => findMarkers rest (p + 1) (b == 10)
  | [], _, _ => []

/-- From the marker matches build the span table: span i runs from match
i's end offset to match (i+1)'s start offset, the last one to the source
length. -/
def spansOf : List (Nat × Nat) → Nat → List (Nat × Nat)
  | [], _ => []
  | [(_, e)], n => [(e, n)]
  | (_, e) :: (s2, e2) :: rest, n => (e, s2) :: spansOf ((s2, e2) :: rest) n

/-- RandomFasta._find_pos: fails (tuple unpack of an empty zip) when the
source has no marker at all. -/
def findPos (bs : List Nat) : Option (List (Nat × Nat)) :=
  match findMarkers bs 0 true with
  | [] => none
  | f => some (spansOf f bs.length)

/-- Mirrors RandomFasta: the mapped byte source plus its span table. -/
structure RandomFasta where
  fasta : List Nat
  pos : List (Nat × Nat)
deriving DecidableEq, Repr

/-- RandomFasta.__init__ over a byte source. -/
def RandomFasta.build (bs : List Nat) : Option RandomFasta :=
  match findPos bs with
  | none => none
  | some pos => some (RandomFasta.mk bs pos)

/-- RandomFasta.__len__. -/
def RandomFasta.len (rf : RandomFasta) : Nat :=
  rf.pos.length

/-- Body of RandomFasta.get_idx after index normalization: slice the span,
split header from body at the first EOL, derive id / description /
sequence.  none models the ValueError paths (no EOL; header without a
space byte, which breaks the two-element unpack of split). -/
def parseSpan (fasta : List Nat) (s e : Nat) : Option Record :=
  let b := (fasta.drop s).take (e - s)
  match findEol b with
  | none => none
  | some i =>
    match splitSpace1 (b.take i) with
    | [sid, _] =>
      match decodeAscii sid, decodeAscii (stripBytes (b.take i)),
            decodeAscii ((removeWhite (b.drop (i + 1))).map asciiUpper) with
      | some idv, some descv, some seqv => some (Record.mk idv descv seqv)
      | _, _, _ => none
    | _ => none

/-- self.pos[idx] for a normalized index, then record parsing. -/
def RandomFasta.getAt (rf : RandomFasta) (i : Nat) : Option Record :=
  match rf.pos[i]? with
  | none => none
  | some se => parseSpan rf.fasta se.1 se.2

/-- RandomFasta.get_idx with Python index semantics: negative indices
count from the end, absolute value beyond the length is an error. -/
def RandomFasta.getIdx (rf : RandomFasta) (idx : Int) : Option Record :=
  if idx < 0 then
    if (rf.len : Int) < -idx then none
    else rf.getAt (idx + rf.len).toNat
  else rf.getAt idx.toNat

/-- The cumulative-count table built in CollectionFasta.__init__:
running sums of the child record counts. -/
def cumsums : List RandomFasta → Nat → List Nat
  | [], _ => []
  | f :: rest, acc => (acc + f.len) :: cumsums rest (acc + f.len)

/-- Mirrors CollectionFasta: children plus their cumulative-count table. -/
structure CollectionFasta where
  fastas : List RandomFasta
  cumsum : List Nat
deriving DecidableEq, Repr

/-- CollectionFasta.__init__ over already-built children; the assert
rejects an empty list. -/
def CollectionFasta.build (fs : List RandomFasta) : Option CollectionFasta :=
  if fs.isEmpty then none
  else some (CollectionFasta.mk fs (cumsums fs 0))

/-- CollectionFasta.__init__ over raw byte sources (one RandomFasta is
built per file; any failure aborts construction). -/
def CollectionFasta.buildBytes (bss : List (List Nat)) : Option CollectionFasta :=
  match bss.mapM RandomFasta.build with
  | none => none
  | some fs => CollectionFasta.build fs

/-- CollectionFasta.__len__: last entry of the cumulative table. -/
def CollectionFasta.len (c : CollectionFasta) : Nat :=
  c.cumsum.getLastD 0

/-- bisect.bisect_right on a nondecreasing table: number of entries that
are at most x. -/
def bisectRight (l : List Nat) (x : Nat) : Nat :=
  (l.takeWhile (fun c => decide (c ≤ x))).length

/-- Body of CollectionFasta._map_idx after index normalization: bisect the
cumulative table, subtract the previous cumulative count, index the child
list (an out-of-range child index is the IndexError path). -/
def CollectionFasta.mapAt (c : CollectionFasta) (j : Nat) : Option (Nat × RandomFasta) :=
  if bisectRight c.cumsum j > c.cumsum.length then none
  else
    match c.fastas[bisectRight c.cumsum j]? with
    | none => none
    | some rf =>
      some (j - (if bisectRight c.cumsum j > 0 then
                   c.cumsum.getD (bisectRight c.cumsum j - 1) 0
                 else 0), rf)

/-- CollectionFasta._map_idx with Python negative-index normalization. -/
def CollectionFasta.mapIdx (c : CollectionFasta) (idx : Int) : Option (Nat × RandomFasta) :=
  if idx < 0 then
    if (c.len : Int) < -idx then none
    else c.mapAt (idx + c.len).toNat
  else c.mapAt idx.toNat

/-- CollectionFasta.get_idx: map the global position, delegate to the
child. -/
def CollectionFasta.getIdx (c : CollectionFasta) (idx : Int) : Option Record :=
  match c.mapIdx idx with
  | none => none
  | some (i, rf) => rf.getIdx (i : Int)

/-- The Sequence[Record] contract LazyFasta needs of its dataset: a length
and integer __getitem__. -/
structure Dataset where
  length : Nat
  get : Int → Option Record

/-- RandomFasta seen through the dataset contract. -/
def RandomFasta.ds (rf : RandomFasta) : Dataset :=
  Dataset.mk rf.len rf.getIdx

/-- CollectionFasta seen through the dataset contract. -/
def CollectionFasta.ds (c : CollectionFasta) : Dataset :=
  Dataset.mk c.len c.getIdx

/-- Python max() over a list; none on an empty list (ValueError). -/
def pyMax : List Int → Option Int
  | [] => none
  | x :: xs =>
    match pyMax xs with
    | none => some x
    | some m => some (max x m)

/-- Python min() over a list; none on an empty list (ValueError). -/
def pyMin : List Int → Option Int
  | [] => none
  | x :: xs =>
    match pyMin xs with
    | none => some x
    | some m => some (min x m)

/-- Python list indexing with a possibly negative integer index. -/
def pyListGet (l : List Int) (i : Int) : Option Int :=
  if i < 0 then
    if (l.length : Int) < -i then none
    else l[(i + l.length).toNat]?
  else l[i.toNat]?

/-- Mirrors LazyFasta: an underlying dataset plus the remap index list. -/
structure LazyFasta where
  dataset : Dataset
  indexes : List Int

/-- LazyFasta.__init__: the assert evaluates max() then min() over the
index list, so an empty list fails (ValueError from max) and any entry
outside [0, len(dataset)) fails the assertion. -/
def LazyFasta.build (d : Dataset) (indexes : List Int) : Option LazyFasta :=
  match pyMax indexes, pyMin indexes with
  | some mx, some mn =>
    if mx < (d.length : Int) ∧ 0 ≤ mn then some (LazyFasta.mk d indexes)
    else none
  | _, _ => none

/-- LazyFasta.__len__. -/
def LazyFasta.len (lf : LazyFasta) : Nat :=
  lf.indexes.length

/-- LazyFasta.__getitem__ for an integer: self._dataset[index[idx]]. -/
def LazyFasta.get (lf : LazyFasta) (idx : Int) : Option Record :=
  match pyListGet lf.indexes idx with
  | none => none
  | some j => lf.dataset.get j

/-- Python `x or d` over a slice component: None and 0 both fall back to
the default. -/
def orDefault (x : Option Int) (d : Int) : Int :=
  match x with
  | none => d
  | some v => if v = 0 then d else v

/-- Python range(s, e, step) as a list of integers. -/
def pyRange (s e step : Int) : List Int :=
  if 0 < step then
    (List.range (((e - s).toNat + (step.toNat - 1)) / step.toNat)).map
      (fun (k : Nat) => s + step * (k : Int))
  else if step < 0 then
    (List.range (((s - e).toNat + ((-step).toNat - 1)) / (-step).toNat)).map
      (fun (k : Nat) => s + step * (k : Int))
  else []

/-- The failing-comprehension combinator: apply get to every listed
position in order; the first failure aborts the whole access, as a raised
exception does. -/
def optMapM (get : Int → Option Record) : List Int → Option (List Record)
  | [] => some []
  | x :: xs =>
    match get x with
    | none => none
    | some r =>
      match optMapM get xs with
      | none => none
      | some rs => some (r :: rs)

/-- The shared slice branch of __getitem__ in all three classes:
range(idx.start, idx.stop or len(self), idx.step or 1) mapped over the
integer accessor.  A missing start is the TypeError path of range(None,..). -/
def sliceVia (get : Int → Option Record) (len : Nat)
    (start stop step : Option Int) : Option (List Record) :=
  match start with
  | none => none
  | some s => optMapM get (pyRange s (orDefault stop (len : Int)) (orDefault step 1))

/-- RandomFasta.__getitem__ with a slice argument. -/
def RandomFasta.getSlice (rf : RandomFasta) : Option Int → Option Int → Option Int → Option (List Record) :=
  sliceVia rf.getIdx rf.len

/-- CollectionFasta.__getitem__ with a slice argument. -/
def CollectionFasta.getSlice (c : CollectionFasta) : Option Int → Option Int → Option Int → Option (List Record) :=
  sliceVia c.getIdx c.len

/-- LazyFasta.__getitem__ with a slice argument. -/
def LazyFasta.getSlice (lf : LazyFasta) : Option Int → Option Int → Option Int → Option (List Record) :=
  sliceVia lf.get lf.len

/-- The spec's concrete two-record scenario file. -/
def scen1 : List Nat := bytesOf ">seq1 desc one\nACGT\nAC\n>seq2\nggtt\n"

/-- The single-file index the scenario file builds. -/
def rfScen : RandomFasta := RandomFasta.mk scen1 [(1, 22), (24, 34)]

/-- The composite index over two copies of the scenario file. -/
def cScen : CollectionFasta := CollectionFasta.mk [rfScen, rfScen] [2, 4]

/-- A two-record file whose records both parse (both headers contain a
space). -/
def cex3 : List Nat := bytesOf ">a x\nAC\n>b y\nGG\n"

/-- The single-file index over cex3. -/
def rfCex3 : RandomFasta := RandomFasta.mk cex3 [(1, 7), (9, 16)]

/-- A permuted view over the cex3 index. -/
def lfCex3 : LazyFasta := LazyFasta.mk rfCex3.ds [1, 0]

end NNF

namespace NNF

/-- Claim C1: on the single scenario file the index has length 2 and
get(0) is the Record (seq1, "seq1 desc one", ACGTAC); but get(1), whose
header "seq2" holds no space byte, hits the failing two-element unpack of
desc.split(b" ", maxsplit=1) and raises instead of returning the Record
(seq2, "seq2", GGTT) the spec promises. -/
theorem claim1_scenario_eval :
    (RandomFasta.build scen1).map (fun rf => (rf.len, rf.getIdx 0, rf.getIdx 1)) =
      some (2, some (Record.mk "seq1" "seq1 desc one" "ACGTAC"), none) := by
  decide

/-- Claim C2: fetching a record whose header holds no whitespace does not
succeed: on the file ">seq2\nggtt\n" the index builds with length 1 but
get(0) raises (two-element unpack of a one-element split), instead of
returning a Record with id = description = "seq2". -/
theorem claim2_no_space_header_eval :
    (RandomFasta.build (bytesOf ">seq2\nggtt\n")).map (fun rf => (rf.len, rf.getIdx 0)) =
      some (1, none) := by
  decide

/-- Claim C5: get can succeed with an empty id: on the file "> x\nAC\n"
the header is split on the first space byte before any trimming, so the id
token is the empty string while the description is "x"; the id is not a
non-empty prefix token of the description as claimed. -/
theorem claim5_empty_id_eval :
    (RandomFasta.build (bytesOf "> x\nAC\n")).map (fun rf => rf.getIdx 0) =
      some (some (Record.mk "" "x" "AC")) := by
  decide

/-- Claim C3, counterexample: with stop = 0 the slice path evaluates
idx.stop or len(self), and 0 is falsy, so get_range(0, 0, 1) on a
two-record file returns both records rather than the empty list the claim
requires at s = e = 0. -/
theorem claim3_stop_zero_counterexample :
    (RandomFasta.build cex3).map (fun rf => rf.getSlice (some 0) (some 0) (some 1)) =
      some (some [Record.mk "a" "a x" "AC", Record.mk "b" "b y" "GG"]) ∧
    (RandomFasta.build cex3).map (fun rf => rf.getSlice (some 0) (some 0) (some 1)) ≠
      some (some []) := by
  constructor
  · decide
  · decide

/-- Claim C10: in every collection the slice branch passes idx.start
straight to range(), so an omitted (None) start is a TypeError, never a
default of 0; only stop and step have defaults. -/
theorem claim10_none_start_fails (rf : RandomFasta) (c : CollectionFasta)
    (lf : LazyFasta) (stop step : Option Int) :
    rf.getSlice none stop step = none ∧
    c.getSlice none stop step = none ∧
    lf.getSlice none stop step = none :=
  ⟨rfl, rfl, rfl⟩

end NNF

namespace NNF

/-- pyMax of a nonempty list is always some value. -/
theorem pyMax_cons_isSome (x : Int) (xs : List Int) : (pyMax (x :: xs)).isSome := by
  unfold pyMax
  cases pyMax xs <;> rfl

/-- pyMin of a nonempty list is always some value. -/
theorem pyMin_cons_isSome (x : Int) (xs : List Int) : (pyMin (x :: xs)).isSome := by
  unfold pyMin
  cases pyMin xs <;> rfl

/-- If pyMax returns a value, every member is at most that value. -/
theorem le_pyMax {l : List Int} {j m : Int} (hj : j ∈ l) (hm : pyMax l = some m) :
    j ≤ m := by
  induction l generalizing m with
  | nil => cases hj
  | cons x xs ih =>
    rcases List.mem_cons.mp hj with heq | hj2
    · subst heq
      unfold pyMax at hm
      rcases hxs : pyMax xs with _ | m2 <;> rw [hxs] at hm <;>
          simp only [Option.some.injEq] at hm
      · omega
      · subst hm
        exact le_max_left j m2
    · rcases hxs : pyMax xs with _ | m2
      · cases xs with
        | nil => cases hj2
        | cons y ys =>
          have := pyMax_cons_isSome y ys
          rw [hxs] at this
          cases this
      · unfold pyMax at hm
        rw [hxs] at hm
        simp only [Option.some.injEq] at hm
        subst hm
        exact le_trans (ih hj2 hxs) (le_max_right x m2)

/-- If pyMin returns a value, it is at most every member. -/
theorem pyMin_le {l : List Int} {j m : Int} (hj : j ∈ l) (hm : pyMin l = some m) :
    m ≤ j := by
  induction l generalizing m with
  | nil => cases hj
  | cons x xs ih =>
    rcases List.mem_cons.mp hj with heq | hj2
    · subst heq
      unfold pyMin at hm
      rcases hxs : pyMin xs with _ | m2 <;> rw [hxs] at hm <;>
          simp only [Option.some.injEq] at hm
      · omega
      · subst hm
        exact min_le_left j m2
    · rcases hxs : pyMin xs with _ | m2
      · cases xs with
        | nil => cases hj2
        | cons y ys =>
          have := pyMin_cons_isSome y ys
          rw [hxs] at this
          cases this
      · unfold pyMin at hm
        rw [hxs] at hm
        simp only [Option.some.injEq] at hm
        subst hm
        exact le_trans (min_le_right x m2) (ih hj2 hxs)

/-- Claim C6: the negative-index law holds in all three collection
classes: for 1 <= i <= length, get(-i) and get(length - i) agree (both
normalize to the same position, whether the access then succeeds or
fails). -/
theorem claim6_negative_index_law (rf : RandomFasta) (c : CollectionFasta)
    (lf : LazyFasta) (i : Int) :
    (1 ≤ i → i ≤ (rf.len : Int) → rf.getIdx (-i) = rf.getIdx ((rf.len : Int) - i)) ∧
    (1 ≤ i → i ≤ (c.len : Int) → c.getIdx (-i) = c.getIdx ((c.len : Int) - i)) ∧
    (1 ≤ i → i ≤ (lf.len : Int) → lf.get (-i) = lf.get ((lf.len : Int) - i)) := by
  refine ⟨fun h1 h2 => ?_, fun h1 h2 => ?_, fun h1 h2 => ?_⟩
  · have e1 : rf.getIdx (-i) = rf.getAt ((-i) + rf.len).toNat := by
      unfold RandomFasta.getIdx
      rw [if_pos (by omega), if_neg (by omega)]
    have e2 : rf.getIdx ((rf.len : Int) - i) = rf.getAt ((rf.len : Int) - i).toNat := by
      unfold RandomFasta.getIdx
      rw [if_neg (by omega)]
    rw [e1, e2]
    congr 1
    omega
  · have e1 : c.mapIdx (-i) = c.mapAt ((-i) + c.len).toNat := by
      unfold CollectionFasta.mapIdx
      rw [if_pos (by omega), if_neg (by omega)]
    have e2 : c.mapIdx ((c.len : Int) - i) = c.mapAt ((c.len : Int) - i).toNat := by
      unfold CollectionFasta.mapIdx
      rw [if_neg (by omega)]
    have e3 : ((-i) + c.len).toNat = ((c.len : Int) - i).toNat := by omega
    unfold CollectionFasta.getIdx
    rw [e1, e2, e3]
  · have e1 : pyListGet lf.indexes (-i) = lf.indexes[((-i) + lf.len).toNat]? := by
      unfold pyListGet
      rw [if_pos (by omega), if_neg ?_]
      · rfl
      · unfold LazyFasta.len at h2
        omega
    have e2 : pyListGet lf.indexes ((lf.len : Int) - i) =
        lf.indexes[((lf.len : Int) - i).toNat]? := by
      unfold pyListGet
      rw [if_neg (by omega)]
    have e3 : ((-i) + lf.len).toNat = ((lf.len : Int) - i).toNat := by omega
    unfold LazyFasta.get
    rw [e1, e2, e3]

/-- Claim C6 witness at concrete collections and i = 1. -/
theorem claim6_negative_index_law_witness :
    rfCex3.getIdx (-1) = rfCex3.getIdx ((rfCex3.len : Int) - 1) ∧
    cScen.getIdx (-1) = cScen.getIdx ((cScen.len : Int) - 1) ∧
    lfCex3.get (-1) = lfCex3.get ((lfCex3.len : Int) - 1) := by
  obtain ⟨ha, hb, hc⟩ := claim6_negative_index_law rfCex3 cScen lfCex3 1
  exact ⟨ha (by decide) (by decide), hb (by decide) (by decide),
    hc (by decide) (by decide)⟩

/-- Claim C7: PermutedView composition and eager validation: building
over an empty index list fails, building fails when any index entry is
negative or at least the underlying length, and on a successfully built
view get(k) for valid k delegates to the underlying dataset at entry k of
the index list. -/
theorem claim7_permuted_view (d : Dataset) (idx : List Int) :
    (LazyFasta.build d [] = none) ∧
    (∀ j, j ∈ idx → (j < 0 ∨ (d.length : Int) ≤ j) → LazyFasta.build d idx = none) ∧
    (∀ lf k, LazyFasta.build d idx = some lf → k < idx.length →
      lf.get (k : Int) = d.get (idx.getD k 0)) := by
  refine ⟨rfl, fun j hj hbad => ?_, fun lf k hb hk => ?_⟩
  · rcases hmx : pyMax idx with _ | mx
    · simp [LazyFasta.build, hmx]
    · rcases hmn : pyMin idx with _ | mn
      · simp [LazyFasta.build, hmx, hmn]
      · have hle := le_pyMax hj hmx
        have hge := pyMin_le hj hmn
        simp only [LazyFasta.build, hmx, hmn]
        rw [if_neg ?_]
        rcases hbad with hb | hb
        · exact fun hcon => by omega
        · exact fun hcon => by omega
  · rcases hmx : pyMax idx with _ | mx <;>
      rcases hmn : pyMin idx with _ | mn <;>
      simp only [LazyFasta.build, hmx, hmn] at hb
    · cases hb
    · cases hb
    · cases hb
    · by_cases hcond : mx < (d.length : Int) ∧ 0 ≤ mn
      · rw [if_pos hcond] at hb
        have hlf : lf = LazyFasta.mk d idx := by
          cases hb
          rfl
        subst hlf
        have hget : pyListGet idx (k : Int) = some (idx.getD k 0) := by
          unfold pyListGet
          rw [if_neg (by omega)]
          have ht : ((k : Int)).toNat = k := by omega
          rw [ht, List.getElem?_eq_getElem hk, List.getD_eq_getElem]
        unfold LazyFasta.get
        rw [hget]
      · rw [if_neg hcond] at hb
        cases hb

/-- Claim C7 witness: a concrete permuted view over the two-record cex3
index, plus a concrete rejected construction. -/
theorem claim7_permuted_view_witness :
    lfCex3.get ((0 : Nat) : Int) = rfCex3.ds.get ([(1 : Int), 0].getD 0 0) ∧
    LazyFasta.build rfCex3.ds [-1] = none :=
  ⟨(claim7_permuted_view rfCex3.ds [1, 0]).2.2 lfCex3 0 rfl (by decide),
   (claim7_permuted_view rfCex3.ds [-1]).2.1 (-1) (by decide) (Or.inl (by decide))⟩

end NNF

namespace NNF

/-- The PREFIX scan finds nothing when no byte position carries a record
marker: the first byte is not a marker candidate and no newline or
carriage-return byte is immediately followed by one. -/
theorem findMarkers_eq_nil :
    ∀ (bs : List Nat) (p : Nat) (flag : Bool),
      (flag = true → bs[0]? ≠ some 62) →
      (∀ i, (bs[i]? = some 10 ∨ bs[i]? = some 13) → bs[i + 1]? ≠ some 62) →
      findMarkers bs p flag = [] := by
  intro bs p flag
  induction bs, p, flag using findMarkers.induct with
  | case1 rest p x ih =>
    intro _ h1
    exact absurd (by simp) (h1 0 (Or.inl (by simp)))
  | case2 rest p x ih =>
    intro _ h1
    exact absurd (by simp) (h1 0 (Or.inr (by simp)))
  | case3 rest p ih =>
    intro h0 _
    exact absurd (by simp) (h0 rfl)
  | case4 b rest p x hne1 hne2 hne3 ih =>
    intro h0 h1
    have hred : findMarkers (b :: rest) p x = findMarkers rest (p + 1) (b == 10) := by
      rw [findMarkers.eq_def]
      split
      · rename_i rest1 heq
        injection heq with e1 e2
        exact (hne1 _ e1 e2).elim
      · rename_i rest1 heq
        injection heq with e1 e2
        exact (hne2 _ e1 e2).elim
      · rename_i tl heq
        injection heq with e1 e2
        exact (hne3 e1 rfl).elim
      · rename_i heq hlast
        injection heq with e1 e2
        subst e1
        subst e2
        rfl
      · rename_i heq
        cases heq
    rw [hred]
    refine ih (fun hb => ?_) (fun i hi => ?_)
    · have hb10 : b = 10 := by simpa using hb
      have := h1 0 (Or.inl (by simp [hb10]))
      simpa using this
    · have := h1 (i + 1) (by simpa using hi)
      simpa using this
  | case5 p x =>
    intro _ _
    rfl

/-- Claim C8: a byte source with no record marker (no ">" as its first
byte and none immediately after a newline or carriage-return byte) fails
single-file index construction: _find_pos finds zero matches and the
constructor raises, so no index is returned. -/
theorem claim8_no_marker_build_fails (bs : List Nat)
    (h0 : bs[0]? ≠ some 62)
    (h1 : ∀ i, i < bs.length → (bs[i]? = some 10 ∨ bs[i]? = some 13) →
      bs[i + 1]? ≠ some 62) :
    RandomFasta.build bs = none := by
  have h1' : ∀ i, (bs[i]? = some 10 ∨ bs[i]? = some 13) → bs[i + 1]? ≠ some 62 := by
    intro i hi
    by_cases hlt : i < bs.length
    · exact h1 i hlt hi
    · rcases hi with hi | hi <;> rw [List.getElem?_eq_none (by omega)] at hi <;> cases hi
  have hnil := findMarkers_eq_nil bs 0 true (fun _ => h0) h1'
  unfold RandomFasta.build findPos
  rw [hnil]

/-- Claim C8 witness: a concrete marker-free byte source is rejected. -/
theorem claim8_no_marker_build_fails_witness :
    RandomFasta.build (bytesOf "hello\nworld\n") = none :=
  claim8_no_marker_build_fails (bytesOf "hello\nworld\n") (by decide) (by decide)

end NNF

namespace NNF

/-- Unfolding rule for bisect on a cons cell. -/
theorem bisectRight_cons (a : Nat) (t : List Nat) (x : Nat) :
    bisectRight (a :: t) x = if a ≤ x then bisectRight t x + 1 else 0 := by
  unfold bisectRight
  by_cases h : a ≤ x
  · simp [List.takeWhile_cons, h]
  · simp [List.takeWhile_cons, h]

/-- bisect never returns past the end of the table. -/
theorem bisectRight_le_length (l : List Nat) (x : Nat) : bisectRight l x ≤ l.length := by
  induction l with
  | nil => simp [bisectRight]
  | cons a t ih =>
    rw [bisectRight_cons]
    by_cases h : a ≤ x
    · simpa [h] using ih
    · simp [h]

/-- Every table entry before the bisect point is at most the probe. -/
theorem bisectRight_prefix_le (l : List Nat) (x : Nat) :
    ∀ k, k < bisectRight l x → l.getD k 0 ≤ x := by
  induction l with
  | nil => simp [bisectRight]
  | cons a t ih =>
    intro k hk
    rw [bisectRight_cons] at hk
    by_cases h : a ≤ x
    · rw [if_pos h] at hk
      cases k with
      | zero => simpa using h
      | succ k2 => simpa using ih k2 (by omega)
    · rw [if_neg h] at hk
      omega

/-- The table entry at the bisect point (when inside the table) exceeds
the probe. -/
theorem bisectRight_lt (l : List Nat) (x : Nat) :
    bisectRight l x < l.length → x < l.getD (bisectRight l x) 0 := by
  induction l with
  | nil => simp [bisectRight]
  | cons a t ih =>
    intro hlen
    rw [bisectRight_cons] at hlen ⊢
    by_cases h : a ≤ x
    · rw [if_pos h] at hlen ⊢
      simpa using ih (by simpa using hlen)
    · rw [if_neg h]
      simpa using Nat.lt_of_not_le h

/-- When every table entry is at most the probe, bisect returns the whole
length. -/
theorem bisectRight_eq_length (l : List Nat) (x : Nat)
    (h : ∀ a ∈ l, a ≤ x) : bisectRight l x = l.length := by
  induction l with
  | nil => simp [bisectRight]
  | cons a t ih =>
    rw [bisectRight_cons, if_pos (h a (by simp))]
    simp [ih (fun b hb => h b (by simp [hb]))]

/-- When bisect returns the whole length, every table entry is at most
the probe. -/
theorem bisectRight_eq_length_imp (l : List Nat) (x : Nat)
    (h : bisectRight l x = l.length) : ∀ a ∈ l, a ≤ x := by
  induction l with
  | nil => simp
  | cons a t ih =>
    rw [bisectRight_cons] at h
    by_cases ha : a ≤ x
    · rw [if_pos ha] at h
      intro b hb
      rcases List.mem_cons.mp hb with he | hb2
      · subst he
        exact ha
      · exact ih (by simpa using h) b hb2
    · rw [if_neg ha] at h
      simp at h

/-- The cumulative table has one entry per child. -/
theorem cumsums_length (fs : List RandomFasta) :
    ∀ a, (cumsums fs a).length = fs.length := by
  induction fs with
  | nil => intro a; rfl
  | cons f rest ih => intro a; simp [cumsums, ih]

/-- The last cumulative entry dominates the starting accumulator. -/
theorem cumsums_a_le_last (fs : List RandomFasta) :
    ∀ a, fs ≠ [] → a ≤ (cumsums fs a).getLastD 0 := by
  induction fs with
  | nil =>
    intro a h
    exact absurd rfl h
  | cons f rest ih =>
    intro a _
    simp only [cumsums, List.getLastD_cons]
    cases rest with
    | nil => simp [cumsums]
    | cons g rs =>
      have h2 := ih (a + f.len) (by simp)
      simp only [cumsums, List.getLastD_cons] at h2 ⊢
      omega

/-- Every cumulative entry is at most the last one. -/
theorem mem_cumsums_le_last (fs : List RandomFasta) :
    ∀ a x, x ∈ cumsums fs a → x ≤ (cumsums fs a).getLastD 0 := by
  induction fs with
  | nil =>
    intro a x hx
    cases hx
  | cons f rest ih =>
    intro a x hx
    simp only [cumsums, List.getLastD_cons] at hx ⊢
    rcases List.mem_cons.mp hx with he | hx2
    · subst he
      cases rest with
      | nil => simp [cumsums]
      | cons g rs =>
        have h3 := cumsums_a_le_last (g :: rs) (a + f.len) (by simp)
        simp only [cumsums, List.getLastD_cons] at h3 ⊢
        omega
    · cases rest with
      | nil => cases hx2
      | cons g rs =>
        have := ih (a + f.len) x hx2
        simp only [cumsums, List.getLastD_cons] at this ⊢
        exact this

end NNF

namespace NNF

/-- A successful CollectionFasta construction pins down the state: the
children list is kept as given (and is nonempty) and the cumulative table
is its running-sum table. -/
theorem collection_build_some {fs : List RandomFasta} {c : CollectionFasta}
    (hb : CollectionFasta.build fs = some c) :
    c = CollectionFasta.mk fs (cumsums fs 0) ∧ fs ≠ [] := by
  unfold CollectionFasta.build at hb
  by_cases hfs : fs.isEmpty
  · rw [if_pos hfs] at hb
    cases hb
  · rw [if_neg hfs] at hb
    refine ⟨?_, ?_⟩
    · cases hb
      rfl
    · intro h
      subst h
      simp at hfs

/-- Claim C9: a composite get at a position at or beyond the total length,
or below minus the total length, already fails inside the position-mapping
stage (before any child or byte source is consulted), and the get itself
fails. -/
theorem claim9_out_of_range_fails (fs : List RandomFasta) (c : CollectionFasta)
    (idx : Int) (hb : CollectionFasta.build fs = some c)
    (hout : (c.len : Int) ≤ idx ∨ idx < -(c.len : Int)) :
    c.mapIdx idx = none ∧ c.getIdx idx = none := by
  suffices hmap : c.mapIdx idx = none by
    refine ⟨hmap, ?_⟩
    unfold CollectionFasta.getIdx
    rw [hmap]
  obtain ⟨hc, hne⟩ := collection_build_some hb
  rcases hout with hge | hlt
  · have hlen0 : (0 : Int) ≤ (c.len : Int) := by positivity
    unfold CollectionFasta.mapIdx
    rw [if_neg (by omega)]
    have hall : ∀ a ∈ c.cumsum, a ≤ idx.toNat := by
      intro a ha
      have h1 : a ≤ c.cumsum.getLastD 0 := by
        rw [hc] at ha ⊢
        exact mem_cumsums_le_last fs 0 a ha
      have h2 : c.cumsum.getLastD 0 = c.len := rfl
      omega
    have hbr : bisectRight c.cumsum idx.toNat = c.cumsum.length :=
      bisectRight_eq_length _ _ hall
    unfold CollectionFasta.mapAt
    rw [hbr, if_neg (by omega)]
    have hfn : c.fastas[c.cumsum.length]? = none := by
      rw [hc]
      rw [List.getElem?_eq_none]
      simp [cumsums_length]
    rw [hfn]
  · unfold CollectionFasta.mapIdx
    rw [if_pos (by omega), if_pos (by omega)]

/-- Claim C9 witness: on a concrete one-file composite of length 2,
position 5 fails in mapping and in get. -/
theorem claim9_out_of_range_fails_witness :
    CollectionFasta.mapIdx (CollectionFasta.mk [rfScen] [2]) 5 = none ∧
    CollectionFasta.getIdx (CollectionFasta.mk [rfScen] [2]) 5 = none :=
  claim9_out_of_range_fails [rfScen] (CollectionFasta.mk [rfScen] [2]) 5
    (by decide) (Or.inl (by decide))

end NNF

namespace NNF

/-- The defaulted last element of a nonempty list is a member. -/
theorem getLastD_mem_of_ne_nil {l : List Nat} (h : l ≠ []) : l.getLastD 0 ∈ l := by
  cases l with
  | nil => exact absurd rfl h
  | cons a t =>
    rw [List.getLastD_cons]
    exact List.getLastD_mem_cons t a

/-- Claim C4: position mapping on a composite index.  General part: for a
well-built composite and any global position j below the total length, the
mapping picks the unique smallest child k whose cumulative count exceeds
j (no earlier cumulative entry does), and returns the local index j minus
the previous cumulative count (j itself for k = 0) together with child k.
Concrete part: two copies of the scenario file give length 4 and positions
2 and 3 map to local 0 and 1 of the second child. -/
theorem claim4_composite_position_mapping :
    (∀ (fs : List RandomFasta) (c : CollectionFasta) (j : Nat),
      CollectionFasta.build fs = some c → j < c.len →
      ∃ k rf, k < c.cumsum.length ∧
        (∀ m, m < k → ¬ (j < c.cumsum.getD m 0)) ∧
        j < c.cumsum.getD k 0 ∧
        c.fastas[k]? = some rf ∧
        c.mapIdx (j : Int) =
          some ((if k = 0 then j else j - c.cumsum.getD (k - 1) 0), rf)) ∧
    (CollectionFasta.buildBytes [scen1, scen1]).map
        (fun c => (c.len, c.fastas, c.mapIdx 2, c.mapIdx 3)) =
      some (4, [rfScen, rfScen], some (0, rfScen), some (1, rfScen)) := by
  constructor
  · intro fs c j hb hj
    obtain ⟨hc, hne⟩ := collection_build_some hb
    have hcs : c.cumsum = cumsums fs 0 := by rw [hc]
    have hfa : c.fastas = fs := by rw [hc]
    have hcne : c.cumsum ≠ [] := by
      rw [hcs]
      intro hnil
      have hl := cumsums_length fs 0
      rw [hnil] at hl
      simp at hl
      exact hne (List.eq_nil_of_length_eq_zero hl.symm)
    have hklt : bisectRight c.cumsum j < c.cumsum.length := by
      rcases Nat.lt_or_ge (bisectRight c.cumsum j) c.cumsum.length with h | h
      · exact h
      · exfalso
        have heq : bisectRight c.cumsum j = c.cumsum.length :=
          le_antisymm (bisectRight_le_length _ _) h
        have hall := bisectRight_eq_length_imp _ _ heq
        have hlast := hall (c.cumsum.getLastD 0) (getLastD_mem_of_ne_nil hcne)
        have hld : c.cumsum.getLastD 0 = c.len := rfl
        omega
    have hflen : c.fastas.length = c.cumsum.length := by
      rw [hcs, hfa, cumsums_length]
    have hklt2 : bisectRight c.cumsum j < c.fastas.length := by omega
    refine ⟨bisectRight c.cumsum j, c.fastas.get ⟨bisectRight c.cumsum j, hklt2⟩,
      hklt, ?_, ?_, ?_, ?_⟩
    · intro m hm
      exact fun hcon => absurd hcon (Nat.not_lt.mpr (bisectRight_prefix_le _ _ m hm))
    · exact bisectRight_lt _ _ hklt
    · rw [List.getElem?_eq_getElem hklt2]
      simp [List.get_eq_getElem]
    · unfold CollectionFasta.mapIdx
      rw [if_neg (by omega)]
      have hjn : ((j : Int)).toNat = j := by omega
      rw [hjn]
      unfold CollectionFasta.mapAt
      rw [if_neg (by omega)]
      rw [List.getElem?_eq_getElem hklt2]
      rcases Nat.eq_zero_or_pos (bisectRight c.cumsum j) with h0 | h0
      · simp [h0, List.get_eq_getElem]
      · have hne0 : bisectRight c.cumsum j ≠ 0 := by omega
        simp [h0, hne0, List.get_eq_getElem]
  · decide

/-- Claim C4 witness for the general part: the doubled scenario composite
at global position 2. -/
theorem claim4_composite_position_mapping_witness :
    ∃ k rf, k < cScen.cumsum.length ∧
      (∀ m, m < k → ¬ (2 < cScen.cumsum.getD m 0)) ∧
      2 < cScen.cumsum.getD k 0 ∧
      cScen.fastas[k]? = some rf ∧
      cScen.mapIdx ((2 : Nat) : Int) =
        some ((if k = 0 then 2 else 2 - cScen.cumsum.getD (k - 1) 0), rf) :=
  claim4_composite_position_mapping.1 [rfScen, rfScen] cScen 2 (by decide) (by decide)

end NNF

namespace NNF

/-- The slice branch with an explicit nonzero stop and step 1 is exactly
position-by-position repeated get over the positions s, s+1, ..., e-1. -/
theorem sliceVia_step_one (get : Int → Option Record) (len : Nat) (s e : Int)
    (he : e ≠ 0) :
    sliceVia get len (some s) (some e) (some 1) =
      optMapM get ((List.range (e - s).toNat).map (fun (k : Nat) => s + (k : Int))) := by
  unfold sliceVia orDefault
  simp only [if_neg he, if_neg (by norm_num : (1 : Int) ≠ 0)]
  unfold pyRange
  rw [if_pos (by norm_num : (0 : Int) < 1)]
  have hcnt : ((e - s).toNat + ((1 : Int).toNat - 1)) / (1 : Int).toNat =
      (e - s).toNat := by norm_num
  rw [hcnt]
  have hfun : (fun (k : Nat) => s + 1 * (k : Int)) = fun (k : Nat) => s + (k : Int) := by
    funext k
    norm_num
  rw [hfun]

/-- The slice branch with omitted stop and step equals the one with stop
explicitly the collection length and step explicitly 1. -/
theorem sliceVia_default_eq (get : Int → Option Record) (len : Nat) (s : Int) :
    sliceVia get len (some s) none none =
      sliceVia get len (some s) (some (len : Int)) (some 1) := by
  unfold sliceVia orDefault
  by_cases h : (len : Int) = 0
  · simp [h]
  · simp [h]

/-- Claim C3 (amended): for valid bounds 0 <= s <= e <= length with
0 < e, range access with step 1 in each of the three collection classes
equals position-by-position repeated get over [s, e) (so s = e > 0 gives
the empty list), and an omitted stop/step defaults to the collection
length and 1.  (The unamended claim fails at e = 0: a stop of 0 is falsy
in idx.stop or len(self) and falls back to the length default.) -/
theorem claim3_range_law_amended (rf : RandomFasta) (c : CollectionFasta)
    (lf : LazyFasta) (s e : Int) (_h0 : 0 ≤ s) (_h1 : s ≤ e) (h2 : 0 < e)
    (_hbr : e ≤ (rf.len : Int)) (_hbc : e ≤ (c.len : Int))
    (_hbl : e ≤ (lf.len : Int)) :
    (rf.getSlice (some s) (some e) (some 1) =
      optMapM rf.getIdx
        ((List.range (e - s).toNat).map (fun (k : Nat) => s + (k : Int)))) ∧
    (c.getSlice (some s) (some e) (some 1) =
      optMapM c.getIdx
        ((List.range (e - s).toNat).map (fun (k : Nat) => s + (k : Int)))) ∧
    (lf.getSlice (some s) (some e) (some 1) =
      optMapM lf.get
        ((List.range (e - s).toNat).map (fun (k : Nat) => s + (k : Int)))) ∧
    (rf.getSlice (some s) none none =
      rf.getSlice (some s) (some (rf.len : Int)) (some 1)) ∧
    (c.getSlice (some s) none none =
      c.getSlice (some s) (some (c.len : Int)) (some 1)) ∧
    (lf.getSlice (some s) none none =
      lf.getSlice (some s) (some (lf.len : Int)) (some 1)) :=
  ⟨sliceVia_step_one rf.getIdx rf.len s e (by omega),
   sliceVia_step_one c.getIdx c.len s e (by omega),
   sliceVia_step_one lf.get lf.len s e (by omega),
   sliceVia_default_eq rf.getIdx rf.len s,
   sliceVia_default_eq c.getIdx c.len s,
   sliceVia_default_eq lf.get lf.len s⟩

/-- Claim C3 witness at concrete collections with s = 0, e = 1. -/
theorem claim3_range_law_amended_witness :
    rfCex3.getSlice (some 0) (some 1) (some 1) =
      optMapM rfCex3.getIdx
        ((List.range ((1 : Int) - 0).toNat).map
          (fun (k : Nat) => (0 : Int) + (k : Int))) ∧
    rfCex3.getSlice (some 0) none none =
      rfCex3.getSlice (some 0) (some (rfCex3.len : Int)) (some 1) := by
  obtain ⟨ha, hb, hc, hd, he, hf⟩ :=
    claim3_range_law_amended rfCex3 cScen lfCex3 0 1 (by decide) (by decide)
      (by decide) (by decide) (by decide) (by decide)
  exact ⟨ha, hd⟩

end NNF
